import Mathlib

/-!
Verification of the `cpcache2go` TTL cache table.

Shallow embedding of `cachetable.go` and the cache-item record: timestamps and
durations are `Int` (Go `time.Time` / `time.Duration` nanosecond counts; no
overflow occurs in the quantities compared here), keys and payloads are opaque
`Int` values, and the key-to-item map is an association list with unique keys
(Go's `map` semantics). Callback slots are modelled by presence flags plus an
explicit event trace recording each callback invocation in program order; the
data loader is modelled as an optional Lean function. The one-shot cleanup
timer is the pair `cleanupInterval` (the Go field) and `wakeAt` (the absolute
firing time of the pending `time.AfterFunc` timer, `none` when disarmed).
Every operation takes the current time `now` explicitly (Go `time.Now()`).
-/

/-- The two error values of `errors.go`. -/
inductive CacheError where
  | keyNotFound
  | keyNotFoundOrLoadable
deriving DecidableEq, Repr

/-- One cached key/value pair with its bookkeeping (`CacheItem` of
`cacheitem.go`). The `aboutToExpire` field records whether the item's
pre-expiry callback is set. -/
structure CacheItem where
  key : Int
  data : Int
  lifeSpan : Int
  createdOn : Int
  accessedOn : Int
  accessCount : Int
  aboutToExpire : Bool
deriving DecidableEq, Repr

/-- Observable callback/loader invocations, in program order. -/
inductive Event where
  | addedItem : CacheItem → Event
  | aboutToDeleteItem : CacheItem → Event
  | aboutToExpire : Int → Event
  | removed : Int → Event
  | loaderInvoked : Int → Event
deriving DecidableEq, Repr

/-- The cache table (`CacheTable` of `cachetable.go`). `hasAddedItem` and
`hasAboutToDeleteItem` record whether the corresponding callback slots are
set; `loadData` is the optional data-loader. -/
structure CacheTable where
  items : List (Int × CacheItem)
  cleanupInterval : Int
  wakeAt : Option Int
  hasAddedItem : Bool
  hasAboutToDeleteItem : Bool
  loadData : Option (Int → List Int → Option CacheItem)

/-- Map lookup on the association list (Go `table.items[key]`). -/
def lookupKey (l : List (Int × CacheItem)) (k : Int) : Option CacheItem :=
  match l with
  | [] => none
  | p :: rest => if p.1 = k then some p.2 else lookupKey rest k

/-- Map assignment (Go `table.items[key] = item`): replace the entry if the
key is present, otherwise append a new entry. -/
def updateItem (l : List (Int × CacheItem)) (k : Int) (v : CacheItem) :
    List (Int × CacheItem) :=
  match l with
  | [] => [(k, v)]
  | p :: rest => if p.1 = k then (k, v) :: rest else p :: updateItem rest k v

/-- Map deletion (Go `delete(table.items, key)`). -/
def eraseKey (l : List (Int × CacheItem)) (k : Int) : List (Int × CacheItem) :=
  l.filter (fun p => decide (p.1 ≠ k))

/-- Erase a list of keys in order. -/
def eraseKeys (l : List (Int × CacheItem)) : List Int → List (Int × CacheItem)
  | [] => l
  | k :: ks => eraseKeys (eraseKey l k) ks

/-- `NewCacheItem` of `cacheitem.go`: fresh timestamps, zero access count, no
pre-expiry callback. -/
def NewCacheItem (key lifeSpan data now : Int) : CacheItem :=
  { key := key, data := data, lifeSpan := lifeSpan, createdOn := now,
    accessedOn := now, accessCount := 0, aboutToExpire := false }

/-- `KeepAlive` of `cacheitem.go`: set `accessedOn` to the current time and
increment `accessCount`. -/
def CacheItem.KeepAlive (item : CacheItem) (now : Int) : CacheItem :=
  { item with accessedOn := now, accessCount := item.accessCount + 1 }

/-- The callback/removal sequence of `deleteInternal`: table-level
`aboutToDeleteItem` callback (receiving the item) if set, then the item's own
`aboutToExpire` callback (receiving the key) if set, then the map deletion. -/
def deleteCore (hasDel : Bool) (key : Int) (r : CacheItem) : List Event :=
  (if hasDel then [Event.aboutToDeleteItem r] else [])
    ++ ((if r.aboutToExpire then [Event.aboutToExpire key] else [])
      ++ [Event.removed key])

/-- `deleteInternal` of `cachetable.go`: absent key fails with
`ErrKeyNotFound`; otherwise fire the delete callbacks and remove the entry,
returning the removed item. -/
def CacheTable.deleteInternal (t : CacheTable) (key : Int) :
    Except CacheError CacheItem × CacheTable × List Event :=
  match lookupKey t.items key with
  | none => (Except.error CacheError.keyNotFound, t, [])
  | some r =>
    (Except.ok r, { t with items := eraseKey t.items key },
      deleteCore t.hasAboutToDeleteItem key r)

/-- `Delete` of `cachetable.go` (the exported wrapper around
`deleteInternal`). -/
def CacheTable.Delete (t : CacheTable) (key : Int) :
    Except CacheError CacheItem × CacheTable × List Event :=
  t.deleteInternal key

/-- Loop body of `expirationCheck`: skip items with `lifeSpan == 0`; delete
items with `now - accessedOn >= lifeSpan` via `deleteInternal`; otherwise
fold the remaining time-to-live into the running minimum `smallestDuration`
(Go initialises it to `0` and replaces it when `0` or larger than the
candidate). The accumulator is (table, smallestDuration, events). -/
def expStep (now : Int) (acc : CacheTable × Int × List Event)
    (p : Int × CacheItem) : CacheTable × Int × List Event :=
  if p.2.lifeSpan = 0 then acc
  else if p.2.lifeSpan ≤ now - p.2.accessedOn then
    ((acc.1.deleteInternal p.1).2.1, acc.2.1,
      acc.2.2 ++ (acc.1.deleteInternal p.1).2.2)
  else if acc.2.1 = 0 ∨ p.2.lifeSpan - (now - p.2.accessedOn) < acc.2.1 then
    (acc.1, p.2.lifeSpan - (now - p.2.accessedOn), acc.2.2)
  else acc

/-- `expirationCheck` of `cachetable.go`: stop the pending timer, scan every
item (deleting expired ones), store the new minimum in `cleanupInterval`, and
re-arm a one-shot timer for it when it is positive. -/
def CacheTable.expirationCheck (t : CacheTable) (now : Int) :
    CacheTable × List Event :=
  let loop := t.items.foldl (expStep now) ({ t with wakeAt := none }, 0, [])
  ({ loop.1 with
      cleanupInterval := loop.2.1
      wakeAt := if 0 < loop.2.1 then some (now + loop.2.1) else none },
    loop.2.2)

/-- `addInternal` of `cachetable.go`: store the item under its key, fire the
`addedItem` callback if set, then re-run the expiration check when the new
item has a finite lifespan that is sooner than the current
`cleanupInterval` (or none is scheduled). -/
def CacheTable.addInternal (t : CacheTable) (item : CacheItem) (now : Int) :
    CacheTable × List Event :=
  let t1 : CacheTable := { t with items := updateItem t.items item.key item }
  let addEvs := if t1.hasAddedItem then [Event.addedItem item] else []
  if 0 < item.lifeSpan ∧
      (t1.cleanupInterval = 0 ∨ item.lifeSpan < t1.cleanupInterval) then
    ((t1.expirationCheck now).1, addEvs ++ (t1.expirationCheck now).2)
  else (t1, addEvs)

/-- `Add` of `cachetable.go`: construct a fresh item and add it, returning
the created item. -/
def CacheTable.Add (t : CacheTable) (key lifeSpan data now : Int) :
    CacheItem × CacheTable × List Event :=
  let item := NewCacheItem key lifeSpan data now
  (item, t.addInternal item now)

/-- `NotFoundAdd` of `cachetable.go`: in one critical section, report `false`
if the key exists, otherwise insert a fresh item and report `true`. -/
def CacheTable.NotFoundAdd (t : CacheTable) (key lifeSpan data now : Int) :
    Bool × CacheTable × List Event :=
  match lookupKey t.items key with
  | some _ => (false, t, [])
  | none => (true, t.addInternal (NewCacheItem key lifeSpan data now) now)

/-- `Value` of `cachetable.go`: on a hit, keep the stored item alive and
return it; on a miss, invoke the configured data loader with the key and
arguments — a non-nil result is re-added (under the requested key, with the
loaded item's lifespan and data) and the loader's item returned, a nil result
fails with `ErrKeyNotFoundOrLoadable`; with no loader the miss fails with
`ErrKeyNotFound`. -/
def CacheTable.Value (t : CacheTable) (key : Int) (args : List Int)
    (now : Int) : Except CacheError CacheItem × CacheTable × List Event :=
  match lookupKey t.items key with
  | some r =>
    (Except.ok (r.KeepAlive now),
      { t with items := updateItem t.items key (r.KeepAlive now) }, [])
  | none =>
    match t.loadData with
    | some loadData =>
      match loadData key args with
      | some item =>
        (Except.ok item, (t.Add key item.lifeSpan item.data now).2.1,
          Event.loaderInvoked key :: (t.Add key item.lifeSpan item.data now).2.2)
      | none =>
        (Except.error CacheError.keyNotFoundOrLoadable, t,
          [Event.loaderInvoked key])
    | none => (Except.error CacheError.keyNotFound, t, [])

/-- `Flush` of `cachetable.go`: empty the mapping, zero `cleanupInterval`,
stop the timer; no callbacks run. -/
def CacheTable.Flush (t : CacheTable) : CacheTable × List Event :=
  ({ t with items := [], cleanupInterval := 0, wakeAt := none }, [])
/-- `Count` of `cachetable.go`. -/
def CacheTable.Count (t : CacheTable) : Int :=
  t.items.length

/-- `MostAccessed` of `cachetable.go`: snapshot (key, accessCount) pairs,
sort descending by access count (`CacheItemPairList.Less` is `>` on the
counts; Go's `sort.Sort` is an arbitrary-tie-order comparison sort, modelled
here by insertion sort), then walk the sorted pairs collecting up to `count`
items looked up back in the map. -/
def CacheTable.MostAccessed (t : CacheTable) (count : Int) : List CacheItem :=
  let p := t.items.map (fun q => (q.1, q.2.accessCount))
  let sorted := List.insertionSort (fun a b : Int × Int => b.2 ≤ a.2) p
  (sorted.take count.toNat).filterMap (fun v => lookupKey t.items v.1)

/-- One table operation together with its caller-supplied arguments, used to
state invariant preservation across the public mutating surface. -/
inductive Op where
  | add : Int → Int → Int → Op
  | notFoundAdd : Int → Int → Int → Op
  | value : Int → List Int → Op
  | delete : Int → Op
  | flush : Op
  | expire : Op

/-- Run one operation at time `now`, keeping the table and the event trace. -/
def applyOp (t : CacheTable) (now : Int) : Op → CacheTable × List Event
  | Op.add k lifeSpan d => ((t.Add k lifeSpan d now).2.1, (t.Add k lifeSpan d now).2.2)
  | Op.notFoundAdd k lifeSpan d =>
    ((t.NotFoundAdd k lifeSpan d now).2.1, (t.NotFoundAdd k lifeSpan d now).2.2)
  | Op.value k args => ((t.Value k args now).2.1, (t.Value k args now).2.2)
  | Op.delete k => ((t.Delete k).2.1, (t.Delete k).2.2)
  | Op.flush => t.Flush
  | Op.expire => t.expirationCheck now

/-- Code-level expiry test of the `expirationCheck` loop: finite lifespan and
idle for at least the lifespan. -/
def expiredB (now : Int) (p : Int × CacheItem) : Bool :=
  decide (p.2.lifeSpan ≠ 0 ∧ p.2.lifeSpan ≤ now - p.2.accessedOn)

/-- Remaining time-to-live of an entry at time `now`. -/
def remTTL (now : Int) (p : Int × CacheItem) : Int :=
  p.2.lifeSpan - (now - p.2.accessedOn)

/-- The `smallestDuration` accumulator of the `expirationCheck` loop, with
the same branch structure as `expStep`. -/
def minFold (now : Int) (s : Int) : List (Int × CacheItem) → Int
  | [] => s
  | p :: rest =>
    if p.2.lifeSpan = 0 then minFold now s rest
    else if p.2.lifeSpan ≤ now - p.2.accessedOn then minFold now s rest
    else if s = 0 ∨ remTTL now p < s then minFold now (remTTL now p) rest
    else minFold now s rest

/-- Entries that survive an expiration check at `now` and have a finite
lifespan (the candidates for the next wake). -/
def survB (now : Int) (p : Int × CacheItem) : Bool :=
  decide (p.2.lifeSpan ≠ 0 ∧ now - p.2.accessedOn < p.2.lifeSpan)

/-- Well-formed item store: unique keys (Go map semantics) and non-negative
lifespans (lifespans are durations; `0` means never expires). -/
@[reducible] def ItemsWF (l : List (Int × CacheItem)) : Prop :=
  (l.map Prod.fst).Nodup ∧ ∀ p ∈ l, 0 ≤ p.2.lifeSpan

/-- Well-formed table. -/
@[reducible] def WFTable (t : CacheTable) : Prop :=
  ItemsWF t.items

/-- All stored access timestamps are in the past. -/
@[reducible] def TimeWF (t : CacheTable) (now : Int) : Prop :=
  ∀ p ∈ t.items, p.2.accessedOn ≤ now

/-- A configured loader only produces items with duration lifespans. -/
def LoaderWF (t : CacheTable) : Prop :=
  ∀ f, t.loadData = some f →
    ∀ k args it, f k args = some it → 0 ≤ it.lifeSpan

/-- The finite-lifespan entries of a table. -/
@[reducible] def finiteItems (t : CacheTable) : List (Int × CacheItem) :=
  t.items.filter (fun p => decide (0 < p.2.lifeSpan))

/-- The scheduler invariant exactly as claimed: the pending wake time is the
minimum expiry deadline `accessedOn + lifeSpan` over the finite-lifespan
items, and the scheduler is disarmed when no finite-lifespan item exists. -/
@[reducible] def ExactInv (t : CacheTable) : Prop :=
  match t.wakeAt with
  | none => finiteItems t = []
  | some m =>
    finiteItems t ≠ []
      ∧ (∃ p ∈ finiteItems t, m = p.2.accessedOn + p.2.lifeSpan)
      ∧ ∀ p ∈ finiteItems t, m ≤ p.2.accessedOn + p.2.lifeSpan

/-- The invariant the code actually maintains at quiescent points: the
interval is non-negative; a disarmed scheduler means zero interval and no
finite-lifespan items; an armed scheduler wakes no later than every
finite-lifespan item's deadline and no later than `now + cleanupInterval`. -/
@[reducible] def WeakInv (t : CacheTable) (now : Int) : Prop :=
  0 ≤ t.cleanupInterval ∧
    match t.wakeAt with
    | none => t.cleanupInterval = 0 ∧ finiteItems t = []
    | some m =>
      (∀ p ∈ finiteItems t, m ≤ p.2.accessedOn + p.2.lifeSpan)
        ∧ m ≤ now + t.cleanupInterval

/-- Argument well-formedness for an operation: lifespans passed to the add
operations are durations. -/
def OpWF : Op → Prop
  | Op.add _ lifeSpan _ => 0 ≤ lifeSpan
  | Op.notFoundAdd _ lifeSpan _ => 0 ≤ lifeSpan
  | _ => True

/-- Example item: finite lifespan 5, last accessed at 0, pre-expiry callback
set. -/
@[reducible] def itemA : CacheItem :=
  { key := 1, data := 100, lifeSpan := 5, createdOn := 0, accessedOn := 0,
    accessCount := 2, aboutToExpire := true }

/-- Example item: zero lifespan (never expires). -/
@[reducible] def itemB : CacheItem :=
  { key := 2, data := 200, lifeSpan := 0, createdOn := 0, accessedOn := 0,
    accessCount := 0, aboutToExpire := false }

/-- Example item: finite lifespan 9, last accessed at 2. -/
@[reducible] def itemC : CacheItem :=
  { key := 3, data := 300, lifeSpan := 9, createdOn := 0, accessedOn := 2,
    accessCount := 7, aboutToExpire := false }

/-- Example table holding `itemA`, `itemB`, `itemC` with the table-level
delete callback set. -/
@[reducible] def TC1 : CacheTable :=
  { items := [(1, itemA), (2, itemB), (3, itemC)], cleanupInterval := 5,
    wakeAt := some 5, hasAddedItem := false, hasAboutToDeleteItem := true,
    loadData := none }

/-- The empty table with no loader. -/
@[reducible] def TEmpty : CacheTable :=
  { items := [], cleanupInterval := 0, wakeAt := none, hasAddedItem := false,
    hasAboutToDeleteItem := false, loadData := none }

/-- A loader result whose own key (25) differs from the looked-up key. -/
@[reducible] def item25 : CacheItem :=
  { key := 25, data := 7, lifeSpan := 10, createdOn := -3, accessedOn := -3,
    accessCount := 4, aboutToExpire := true }

/-- A data loader that always produces `item25`. -/
@[reducible] def loaderMismatch : Int → List Int → Option CacheItem :=
  fun _ _ => some item25

/-- Empty table configured with the `loaderMismatch` data loader. -/
@[reducible] def T5 : CacheTable :=
  { items := [], cleanupInterval := 0, wakeAt := none, hasAddedItem := false,
    hasAboutToDeleteItem := false, loadData := some loaderMismatch }

/-- The single finite-lifespan item of `T0`, added at time 0. -/
@[reducible] def item0 : CacheItem :=
  { key := 1, data := 0, lifeSpan := 5, createdOn := 0, accessedOn := 0,
    accessCount := 0, aboutToExpire := false }

/-- Table with one finite-lifespan item and the scheduler armed exactly for
its deadline (the state right after adding the item at time 0). -/
@[reducible] def T0 : CacheTable :=
  { items := [(1, item0)], cleanupInterval := 5, wakeAt := some 5,
    hasAddedItem := false, hasAboutToDeleteItem := false, loadData := none }

/-- The table `T0` after `Delete 1`: the mapping is empty but the timer is
still armed for time 5 with `cleanupInterval` 5. -/
@[reducible] def T0del : CacheTable :=
  { items := [], cleanupInterval := 5, wakeAt := some 5,
    hasAddedItem := false, hasAboutToDeleteItem := false, loadData := none }

/-- Item accessed 5 times. -/
@[reducible] def item10 : CacheItem :=
  { key := 10, data := 1, lifeSpan := 0, createdOn := 0, accessedOn := 0,
    accessCount := 5, aboutToExpire := false }

/-- Item accessed once. -/
@[reducible] def item20 : CacheItem :=
  { key := 20, data := 2, lifeSpan := 0, createdOn := 0, accessedOn := 0,
    accessCount := 1, aboutToExpire := false }

/-- Item accessed 3 times. -/
@[reducible] def item30 : CacheItem :=
  { key := 30, data := 3, lifeSpan := 0, createdOn := 0, accessedOn := 0,
    accessCount := 3, aboutToExpire := false }

/-- Table with three never-expiring items accessed 5, 1, and 3 times. -/
@[reducible] def T9 : CacheTable :=
  { items := [(10, item10), (20, item20), (30, item30)],
    cleanupInterval := 0, wakeAt := none, hasAddedItem := false,
    hasAboutToDeleteItem := false, loadData := none }

/-- The (key, accessCount) snapshot taken by `MostAccessed`. -/
def accessPairs (t : CacheTable) : List (Int × Int) :=
  t.items.map (fun q => (q.1, q.2.accessCount))

lemma lookupKey_some_mem {l : List (Int × CacheItem)} {k : Int} {v : CacheItem}
    (h : lookupKey l k = some v) : (k, v) ∈ l := by
  induction l with
  | nil => simp [lookupKey] at h
  | cons p rest ih =>
    by_cases hk : p.1 = k
    · simp only [lookupKey, hk, if_pos] at h
      cases h
      have : (k, p.2) = p := by cases p; simp_all
      exact this ▸ List.mem_cons_self _ _
    · simp only [lookupKey, hk, if_neg, if_false] at h
      exact List.mem_cons_of_mem _ (ih h)

lemma mem_lookupKey_of_nodup {l : List (Int × CacheItem)} {k : Int}
    {v : CacheItem} (hnd : (l.map Prod.fst).Nodup) (h : (k, v) ∈ l) :
    lookupKey l k = some v := by
  induction l with
  | nil => simp at h
  | cons p rest ih =>
    rcases List.mem_cons.mp h with h1 | h1
    · subst h1
      simp [lookupKey]
    · have hk : p.1 ≠ k := by
        intro he
        have : k ∈ rest.map Prod.fst := List.mem_map_of_mem Prod.fst h1
        rw [List.map_cons] at hnd
        exact (List.nodup_cons.mp hnd).1 (he ▸ this)
      rw [List.map_cons] at hnd
      simp only [lookupKey, hk, if_neg, if_false]
      exact ih (List.nodup_cons.mp hnd).2 h1

lemma lookupKey_isSome_of_mem_keys {l : List (Int × CacheItem)} {k : Int}
    (h : k ∈ l.map Prod.fst) : ∃ v, lookupKey l k = some v := by
  induction l with
  | nil => simp at h
  | cons p rest ih =>
    by_cases hk : p.1 = k
    · exact ⟨p.2, by simp [lookupKey, hk]⟩
    · simp only [List.map_cons, List.mem_cons] at h
      rcases h with h1 | h1
      · exact absurd h1.symm hk
      · simpa [lookupKey, hk] using ih h1

lemma mem_eraseKey {l : List (Int × CacheItem)} {k : Int} {p : Int × CacheItem}
    (h : p ∈ eraseKey l k) : p ∈ l :=
  List.mem_of_mem_filter h

lemma lookupKey_eraseKey_ne {l : List (Int × CacheItem)} {k k' : Int}
    (hne : k' ≠ k) : lookupKey (eraseKey l k) k' = lookupKey l k' := by
  induction l with
  | nil => rfl
  | cons p rest ih =>
    unfold eraseKey at ih ⊢
    rw [List.filter_cons]
    by_cases hk : p.1 = k
    · have hd : decide (p.1 ≠ k) = false := by simp [hk]
      rw [hd]
      have hpk : ¬ p.1 = k' := by rw [hk]; exact fun he => hne he.symm
      simp only [Bool.false_eq_true, if_false]
      rw [ih]
      simp [lookupKey, hpk]
    · have hd : decide (p.1 ≠ k) = true := by simp [hk]
      rw [hd]
      simp only [if_true]
      by_cases hpk : p.1 = k'
      · simp [lookupKey, hpk]
      · simp only [lookupKey, hpk, if_neg, if_false]
        exact ih

lemma mem_updateItem {l : List (Int × CacheItem)} {k : Int} {v : CacheItem}
    {p : Int × CacheItem} (h : p ∈ updateItem l k v) :
    p = (k, v) ∨ p ∈ l := by
  induction l with
  | nil => simpa [updateItem] using h
  | cons q rest ih =>
    by_cases hk : q.1 = k
    · simp only [updateItem, hk, if_pos] at h
      rcases List.mem_cons.mp h with h1 | h1
      · exact Or.inl h1
      · exact Or.inr (List.mem_cons_of_mem _ h1)
    · simp only [updateItem, hk, if_neg, if_false] at h
      rcases List.mem_cons.mp h with h1 | h1
      · exact Or.inr (h1 ▸ List.mem_cons_self _ _)
      · rcases ih h1 with h2 | h2
        · exact Or.inl h2
        · exact Or.inr (List.mem_cons_of_mem _ h2)

lemma lookupKey_updateItem_self (l : List (Int × CacheItem)) (k : Int)
    (v : CacheItem) : lookupKey (updateItem l k v) k = some v := by
  induction l with
  | nil => simp [updateItem, lookupKey]
  | cons q rest ih =>
    by_cases hk : q.1 = k
    · simp [updateItem, lookupKey, hk]
    · simp [updateItem, lookupKey, hk, ih]

lemma mem_keys_updateItem {l : List (Int × CacheItem)} {k k' : Int}
    {v : CacheItem} (h : k' ∈ (updateItem l k v).map Prod.fst) :
    k' ∈ l.map Prod.fst ∨ k' = k := by
  induction l with
  | nil =>
    refine Or.inr ?_
    simp only [updateItem, List.map_cons, List.map_nil] at h
    simpa using h
  | cons q rest ih =>
    by_cases hk : q.1 = k
    · simp only [updateItem, hk, if_pos, List.map_cons, List.mem_cons] at h
      rcases h with h1 | h1
      · exact Or.inr h1
      · exact Or.inl (by rw [List.map_cons]; exact List.mem_cons_of_mem _ h1)
    · simp only [updateItem, hk, if_neg, if_false, List.map_cons,
        List.mem_cons] at h
      rcases h with h1 | h1
      · exact Or.inl (by rw [List.map_cons]; exact List.mem_cons.mpr (Or.inl h1))
      · rcases ih h1 with h2 | h2
        · exact Or.inl (by rw [List.map_cons]; exact List.mem_cons_of_mem _ h2)
        · exact Or.inr h2

lemma nodup_keys_updateItem {l : List (Int × CacheItem)} {k : Int}
    {v : CacheItem} (hnd : (l.map Prod.fst).Nodup) :
    ((updateItem l k v).map Prod.fst).Nodup := by
  induction l with
  | nil => simp [updateItem]
  | cons q rest ih =>
    rw [List.map_cons, List.nodup_cons] at hnd
    by_cases hk : q.1 = k
    · simp only [updateItem, hk, if_pos, List.map_cons, List.nodup_cons]
      exact ⟨hk ▸ hnd.1, hnd.2⟩
    · simp only [updateItem, hk, if_neg, if_false, List.map_cons,
        List.nodup_cons]
      refine ⟨fun hmem => ?_, ih hnd.2⟩
      rcases mem_keys_updateItem hmem with h1 | h1
      · exact hnd.1 h1
      · exact hk h1

lemma eraseKeys_eq_filter (ks : List Int) (l : List (Int × CacheItem)) :
    eraseKeys l ks = l.filter (fun p => decide (p.1 ∉ ks)) := by
  induction ks generalizing l with
  | nil => simp [eraseKeys]
  | cons k ks ih =>
    rw [eraseKeys, ih, eraseKey, List.filter_filter]
    apply List.filter_congr
    intro p _
    by_cases h1 : p.1 = k <;> by_cases h2 : p.1 ∈ ks <;>
      simp [h1, h2, List.mem_cons]

lemma key_inj_of_nodup {l : List (Int × CacheItem)} {p q : Int × CacheItem}
    (hnd : (l.map Prod.fst).Nodup) (hp : p ∈ l) (hq : q ∈ l)
    (hk : p.1 = q.1) : p = q := by
  have h1 : lookupKey l p.1 = some p.2 := mem_lookupKey_of_nodup hnd (by
    cases p; exact hp)
  have h2 : lookupKey l q.1 = some q.2 := mem_lookupKey_of_nodup hnd (by
    cases q; exact hq)
  rw [hk] at h1
  rw [h1] at h2
  injection h2 with h3
  cases p; cases q
  simp_all

lemma lookupKey_filter_of_nodup {l : List (Int × CacheItem)} {k : Int}
    {v : CacheItem} {f : Int × CacheItem → Bool}
    (hnd : (l.map Prod.fst).Nodup) (h : lookupKey l k = some v)
    (hf : f (k, v) = true) : lookupKey (l.filter f) k = some v := by
  have hmem : (k, v) ∈ l.filter f :=
    List.mem_filter.mpr ⟨lookupKey_some_mem h, hf⟩
  have hsub : ((l.filter f).map Prod.fst).Sublist (l.map Prod.fst) :=
    (List.filter_sublist l).map Prod.fst
  exact mem_lookupKey_of_nodup (hnd.sublist hsub) hmem

lemma remTTL_pos {now : Int} {p : Int × CacheItem}
    (h : survB now p = true) : 0 < remTTL now p := by
  have := of_decide_eq_true h
  unfold remTTL
  omega

lemma minFold_nonneg (now : Int) (l : List (Int × CacheItem)) :
    ∀ s : Int, 0 ≤ s → 0 ≤ minFold now s l := by
  induction l with
  | nil => intro s hs; simpa [minFold] using hs
  | cons p rest ih =>
    intro s hs
    by_cases h0 : p.2.lifeSpan = 0
    · simpa [minFold, h0] using ih s hs
    · by_cases hexp : p.2.lifeSpan ≤ now - p.2.accessedOn
      · simpa [minFold, h0, hexp] using ih s hs
      · by_cases hupd : s = 0 ∨ remTTL now p < s
        · have hrem : 0 < remTTL now p := by unfold remTTL; omega
          simpa [minFold, h0, hexp, hupd] using ih (remTTL now p) (le_of_lt hrem)
        · simpa [minFold, h0, hexp, hupd] using ih s hs

lemma minFold_pos (now : Int) (l : List (Int × CacheItem)) :
    ∀ s : Int, 0 < s → 0 < minFold now s l := by
  induction l with
  | nil => intro s hs; simpa [minFold] using hs
  | cons p rest ih =>
    intro s hs
    by_cases h0 : p.2.lifeSpan = 0
    · simpa [minFold, h0] using ih s hs
    · by_cases hexp : p.2.lifeSpan ≤ now - p.2.accessedOn
      · simpa [minFold, h0, hexp] using ih s hs
      · by_cases hupd : s = 0 ∨ remTTL now p < s
        · have hrem : 0 < remTTL now p := by unfold remTTL; omega
          simpa [minFold, h0, hexp, hupd] using ih (remTTL now p) hrem
        · simpa [minFold, h0, hexp, hupd] using ih s hs

lemma minFold_le (now : Int) (l : List (Int × CacheItem)) :
    ∀ s : Int, 0 < s → minFold now s l ≤ s := by
  induction l with
  | nil => intro s _; simp [minFold]
  | cons p rest ih =>
    intro s hs
    by_cases h0 : p.2.lifeSpan = 0
    · simpa [minFold, h0] using ih s hs
    · by_cases hexp : p.2.lifeSpan ≤ now - p.2.accessedOn
      · simpa [minFold, h0, hexp] using ih s hs
      · by_cases hupd : s = 0 ∨ remTTL now p < s
        · have hrem : 0 < remTTL now p := by unfold remTTL; omega
          have h1 := ih (remTTL now p) hrem
          have h2 : remTTL now p ≤ s := by omega
          simp only [minFold, h0, hexp, hupd, if_neg, if_pos, if_true, if_false]
          omega
        · simpa [minFold, h0, hexp, hupd] using ih s hs

lemma minFold_le_rem (now : Int) (l : List (Int × CacheItem)) :
    ∀ s : Int, 0 ≤ s → ∀ p ∈ l, survB now p = true →
      minFold now s l ≤ remTTL now p := by
  induction l with
  | nil => intro s _ p hp; simp at hp
  | cons q rest ih =>
    intro s hs p hp hsurv
    have hqs : ∀ s' : Int, 0 ≤ s' → minFold now s' (q :: rest) =
        (if q.2.lifeSpan = 0 then minFold now s' rest
         else if q.2.lifeSpan ≤ now - q.2.accessedOn then minFold now s' rest
         else if s' = 0 ∨ remTTL now q < s' then minFold now (remTTL now q) rest
         else minFold now s' rest) := fun s' _ => by simp [minFold]
    rcases List.mem_cons.mp hp with h1 | h1
    · subst h1
      have hs1 := of_decide_eq_true hsurv
      have h0 : ¬ p.2.lifeSpan = 0 := hs1.1
      have hexp : ¬ p.2.lifeSpan ≤ now - p.2.accessedOn := by omega
      have hrem : 0 < remTTL now p := remTTL_pos hsurv
      by_cases hupd : s = 0 ∨ remTTL now p < s
      · rw [hqs s hs]
        simp only [h0, hexp, hupd, if_neg, if_pos, if_false, if_true]
        exact minFold_le now rest _ hrem
      · have hslt : 0 < s ∧ s ≤ remTTL now p := by omega
        rw [hqs s hs]
        simp only [h0, hexp, hupd, if_neg, if_false]
        calc minFold now s rest ≤ s := minFold_le now rest s hslt.1
          _ ≤ remTTL now p := hslt.2
    · by_cases h0 : q.2.lifeSpan = 0
      · rw [hqs s hs]; simp only [h0, if_pos]
        exact ih s hs p h1 hsurv
      · by_cases hexp : q.2.lifeSpan ≤ now - q.2.accessedOn
        · rw [hqs s hs]; simp only [h0, hexp, if_neg, if_pos, if_false, if_true]
          exact ih s hs p h1 hsurv
        · by_cases hupd : s = 0 ∨ remTTL now q < s
          · have hrem : 0 < remTTL now q := by unfold remTTL; omega
            rw [hqs s hs]
            simp only [h0, hexp, hupd, if_neg, if_pos, if_false, if_true]
            exact ih (remTTL now q) (le_of_lt hrem) p h1 hsurv
          · rw [hqs s hs]
            simp only [h0, hexp, hupd, if_neg, if_false]
            exact ih s hs p h1 hsurv

lemma minFold_mem (now : Int) (l : List (Int × CacheItem)) :
    ∀ s : Int, minFold now s l = s ∨
      ∃ p ∈ l, survB now p = true ∧ minFold now s l = remTTL now p := by
  induction l with
  | nil => intro s; left; simp [minFold]
  | cons q rest ih =>
    intro s
    by_cases h0 : q.2.lifeSpan = 0
    · rcases ih s with h | ⟨p, hp, hsv, he⟩
      · left; simpa [minFold, h0] using h
      · right; exact ⟨p, List.mem_cons_of_mem _ hp, hsv, by
          simpa [minFold, h0] using he⟩
    · by_cases hexp : q.2.lifeSpan ≤ now - q.2.accessedOn
      · rcases ih s with h | ⟨p, hp, hsv, he⟩
        · left; simpa [minFold, h0, hexp] using h
        · right; exact ⟨p, List.mem_cons_of_mem _ hp, hsv, by
            simpa [minFold, h0, hexp] using he⟩
      · have hsurvq : survB now q = true := decide_eq_true (by
          constructor
          · exact h0
          · omega)
        by_cases hupd : s = 0 ∨ remTTL now q < s
        · rcases ih (remTTL now q) with h | ⟨p, hp, hsv, he⟩
          · right
            exact ⟨q, List.mem_cons_self _ _, hsurvq, by
              simpa [minFold, h0, hexp, hupd] using h⟩
          · right
            exact ⟨p, List.mem_cons_of_mem _ hp, hsv, by
              simpa [minFold, h0, hexp, hupd] using he⟩
        · rcases ih s with h | ⟨p, hp, hsv, he⟩
          · left; simpa [minFold, h0, hexp, hupd] using h
          · right; exact ⟨p, List.mem_cons_of_mem _ hp, hsv, by
              simpa [minFold, h0, hexp, hupd] using he⟩

lemma minFold_zero_eq_zero_iff (now : Int) (l : List (Int × CacheItem)) :
    minFold now 0 l = 0 ↔ ∀ p ∈ l, survB now p = false := by
  induction l with
  | nil => simp [minFold]
  | cons q rest ih =>
    by_cases h0 : q.2.lifeSpan = 0
    · have hq : survB now q = false := by
        simp [survB, h0]
      simp only [minFold, h0, if_pos]
      rw [ih]
      constructor
      · intro h p hp
        rcases List.mem_cons.mp hp with h1 | h1
        · exact h1 ▸ hq
        · exact h p h1
      · intro h p hp
        exact h p (List.mem_cons_of_mem _ hp)
    · by_cases hexp : q.2.lifeSpan ≤ now - q.2.accessedOn
      · have hq : survB now q = false := by
          simp only [survB, decide_eq_false_iff_not]
          intro hc
          omega
        simp only [minFold, h0, hexp, if_neg, if_pos, if_false, if_true]
        rw [ih]
        constructor
        · intro h p hp
          rcases List.mem_cons.mp hp with h1 | h1
          · exact h1 ▸ hq
          · exact h p h1
        · intro h p hp
          exact h p (List.mem_cons_of_mem _ hp)
      · have hq : survB now q = true := decide_eq_true ⟨h0, by omega⟩
        have hrem : 0 < remTTL now q := remTTL_pos hq
        have hpos : 0 < minFold now (remTTL now q) rest :=
          minFold_pos now rest (remTTL now q) hrem
        have hstep : minFold now 0 (q :: rest) =
            minFold now (remTTL now q) rest := by
          simp [minFold, h0, hexp]
        rw [hstep]
        constructor
        · intro h
          exact absurd h (by omega)
        · intro h
          exact absurd (h q (List.mem_cons_self _ _)) (by simp [hq])

lemma expiredB_false_of_zero {now : Int} {p : Int × CacheItem}
    (h0 : p.2.lifeSpan = 0) : expiredB now p = false := by
  simp [expiredB, h0]

lemma expiredB_false_of_alive {now : Int} {p : Int × CacheItem}
    (hexp : ¬ p.2.lifeSpan ≤ now - p.2.accessedOn) : expiredB now p = false := by
  simp only [expiredB, decide_eq_false_iff_not]
  intro hc
  exact hexp hc.2

lemma expLoop_spec (now : Int) (pending : List (Int × CacheItem)) :
    ∀ (tc : CacheTable) (s : Int) (evs : List Event),
      (∀ p ∈ pending, lookupKey tc.items p.1 = some p.2) →
      (pending.map Prod.fst).Nodup →
      pending.foldl (expStep now) (tc, s, evs) =
        ({ tc with items := (eraseKeys tc.items
              ((pending.filter (expiredB now)).map Prod.fst)) },
          minFold now s pending,
          evs ++ (pending.filter (expiredB now)).flatMap
            (fun p => deleteCore tc.hasAboutToDeleteItem p.1 p.2)) := by
  induction pending with
  | nil =>
    intro tc s evs _ _
    simp [eraseKeys, minFold]
  | cons p rest ih =>
    intro tc s evs hsub hnd
    rw [List.foldl_cons]
    rw [List.map_cons, List.nodup_cons] at hnd
    by_cases h0 : p.2.lifeSpan = 0
    · have hstep : expStep now (tc, s, evs) p = (tc, s, evs) := by
        simp [expStep, h0]
      have hexpB : expiredB now p = false := expiredB_false_of_zero h0
      rw [hstep, ih tc s evs (fun q hq => hsub q (List.mem_cons_of_mem _ hq))
        hnd.2]
      simp [List.filter_cons, hexpB, minFold, h0]
    · by_cases hexp : p.2.lifeSpan ≤ now - p.2.accessedOn
      · have hp := hsub p (List.mem_cons_self _ _)
        have hdel : tc.deleteInternal p.1 =
            (Except.ok p.2, { tc with items := eraseKey tc.items p.1 },
              deleteCore tc.hasAboutToDeleteItem p.1 p.2) := by
          simp [CacheTable.deleteInternal, hp]
        have hstep : expStep now (tc, s, evs) p =
            ({ tc with items := eraseKey tc.items p.1 }, s,
              evs ++ deleteCore tc.hasAboutToDeleteItem p.1 p.2) := by
          simp [expStep, h0, hexp, hdel]
        have hexpB : expiredB now p = true := decide_eq_true ⟨h0, hexp⟩
        have hsub2 : ∀ q ∈ rest,
            lookupKey (eraseKey tc.items p.1) q.1 = some q.2 := by
          intro q hq
          have hne : q.1 ≠ p.1 := by
            intro he
            exact hnd.1 (he ▸ List.mem_map_of_mem Prod.fst hq)
          rw [lookupKey_eraseKey_ne hne]
          exact hsub q (List.mem_cons_of_mem _ hq)
        rw [hstep, ih { tc with items := eraseKey tc.items p.1 } s
          (evs ++ deleteCore tc.hasAboutToDeleteItem p.1 p.2) hsub2 hnd.2]
        have hmf : minFold now s (p :: rest) = minFold now s rest := by
          simp [minFold, h0, hexp]
        rw [hmf]
        simp only [List.filter_cons, hexpB, if_pos, if_true, List.map_cons,
          List.flatMap_cons, eraseKeys, List.append_assoc]
      · have hexpB : expiredB now p = false := expiredB_false_of_alive hexp
        have hsub2 : ∀ q ∈ rest, lookupKey tc.items q.1 = some q.2 :=
          fun q hq => hsub q (List.mem_cons_of_mem _ hq)
        by_cases hupd : s = 0 ∨ remTTL now p < s
        · have hcond : s = 0 ∨ p.2.lifeSpan - (now - p.2.accessedOn) < s := by
            unfold remTTL at hupd
            exact hupd
          have hstep : expStep now (tc, s, evs) p =
              (tc, remTTL now p, evs) := by
            unfold expStep
            rw [if_neg h0, if_neg hexp, if_pos hcond]
            rfl
          have hmf : minFold now s (p :: rest) =
              minFold now (remTTL now p) rest := by
            simp [minFold, h0, hexp, hupd]
          rw [hstep, ih tc (remTTL now p) evs hsub2 hnd.2, hmf]
          simp [List.filter_cons, hexpB]
        · have hstep : expStep now (tc, s, evs) p = (tc, s, evs) := by
            simp only [expStep, h0, hexp, hupd, if_neg, if_false]
            simp [remTTL] at hupd
            simp [hupd]
          have hmf : minFold now s (p :: rest) = minFold now s rest := by
            simp [minFold, h0, hexp, hupd]
          rw [hstep, ih tc s evs hsub2 hnd.2, hmf]
          simp [List.filter_cons, hexpB]

lemma eraseKeys_filter_keys {l : List (Int × CacheItem)}
    {f : Int × CacheItem → Bool} (hnd : (l.map Prod.fst).Nodup) :
    eraseKeys l ((l.filter f).map Prod.fst) = l.filter (fun p => !(f p)) := by
  rw [eraseKeys_eq_filter]
  apply List.filter_congr
  intro p hp
  cases hf : f p with
  | false =>
    simp only [Bool.not_false, decide_eq_true_eq]
    intro hmem
    rcases List.mem_map.mp hmem with ⟨q, hq, hqk⟩
    have hql : q ∈ l := List.mem_of_mem_filter hq
    have := key_inj_of_nodup hnd hql hp hqk
    rw [this] at hq
    rw [(List.mem_filter.mp hq).2] at hf
    exact Bool.true_eq_false.mp hf
  | true =>
    simp only [Bool.not_true, decide_eq_false_iff_not, not_not]
    exact List.mem_map_of_mem Prod.fst (List.mem_filter.mpr ⟨hp, hf⟩)

lemma expirationCheck_eq (t : CacheTable) (now : Int)
    (hnd : (t.items.map Prod.fst).Nodup) :
    t.expirationCheck now =
      ({ t with
          items := t.items.filter (fun p => !(expiredB now p))
          cleanupInterval := minFold now 0 t.items
          wakeAt := if 0 < minFold now 0 t.items
            then some (now + minFold now 0 t.items) else none },
        (t.items.filter (expiredB now)).flatMap
          (fun p => deleteCore t.hasAboutToDeleteItem p.1 p.2)) := by
  have hsub : ∀ p ∈ t.items,
      lookupKey ({ t with wakeAt := none } : CacheTable).items p.1 = some p.2 :=
    fun p hp => mem_lookupKey_of_nodup hnd (by cases p; exact hp)
  have hloop := expLoop_spec now t.items { t with wakeAt := none } 0 [] hsub hnd
  simp only [CacheTable.expirationCheck, hloop]
  rw [eraseKeys_filter_keys hnd]
  simp

lemma finite_and_alive_eq_survB {now : Int} {p : Int × CacheItem}
    (hL : 0 ≤ p.2.lifeSpan) :
    (decide (0 < p.2.lifeSpan) && !(expiredB now p)) = survB now p := by
  by_cases h0 : p.2.lifeSpan = 0
  · simp [expiredB, survB, h0]
  · by_cases hexp : p.2.lifeSpan ≤ now - p.2.accessedOn
    · have h1 : expiredB now p = true := decide_eq_true ⟨h0, hexp⟩
      have h2 : survB now p = false := by
        simp only [survB, decide_eq_false_iff_not]
        intro hc
        omega
      simp [h1, h2]
    · have h1 : expiredB now p = false := expiredB_false_of_alive hexp
      have h2 : survB now p = true := decide_eq_true ⟨h0, by omega⟩
      have h3 : decide (0 < p.2.lifeSpan) = true := decide_eq_true (by omega)
      simp [h1, h2, h3]

lemma finiteItems_expirationCheck (t : CacheTable) (now : Int)
    (hwf : WFTable t) :
    finiteItems (t.expirationCheck now).1 = t.items.filter (survB now) := by
  rw [expirationCheck_eq t now hwf.1]
  show (t.items.filter (fun p => !(expiredB now p))).filter
      (fun p => decide (0 < p.2.lifeSpan)) = _
  rw [List.filter_filter]
  exact List.filter_congr (fun p hp => finite_and_alive_eq_survB (hwf.2 p hp))

lemma itemsWF_filter {l : List (Int × CacheItem)} {f : Int × CacheItem → Bool}
    (h : ItemsWF l) : ItemsWF (l.filter f) :=
  ⟨h.1.sublist ((List.filter_sublist l).map Prod.fst),
    fun p hp => h.2 p (List.mem_of_mem_filter hp)⟩

lemma itemsWF_updateItem {l : List (Int × CacheItem)} {k : Int}
    {v : CacheItem} (h : ItemsWF l) (hv : 0 ≤ v.lifeSpan) :
    ItemsWF (updateItem l k v) := by
  refine ⟨nodup_keys_updateItem h.1, fun p hp => ?_⟩
  rcases mem_updateItem hp with h1 | h1
  · rw [h1]
    exact hv
  · exact h.2 p h1

lemma wfTable_expirationCheck (t : CacheTable) (now : Int) (hwf : WFTable t) :
    WFTable (t.expirationCheck now).1 := by
  rw [expirationCheck_eq t now hwf.1]
  exact itemsWF_filter hwf

lemma weakInv_expirationCheck (t : CacheTable) (now : Int) (hwf : WFTable t) :
    WeakInv (t.expirationCheck now).1 now := by
  have hfin := finiteItems_expirationCheck t now hwf
  have hnn : 0 ≤ minFold now 0 t.items := minFold_nonneg now t.items 0 le_rfl
  rw [expirationCheck_eq t now hwf.1] at hfin ⊢
  by_cases hpos : 0 < minFold now 0 t.items
  · refine ⟨hnn, ?_⟩
    rw [if_pos hpos]
    refine ⟨fun p hp => ?_, le_refl _⟩
    have hp2 : p ∈ t.items.filter (survB now) := hfin ▸ hp
    have hsv := (List.mem_filter.mp hp2).2
    have hle := minFold_le_rem now t.items 0 le_rfl p
      (List.mem_filter.mp hp2).1 hsv
    unfold remTTL at hle
    omega
  · have hz : minFold now 0 t.items = 0 := by omega
    refine ⟨hnn, ?_⟩
    rw [if_neg hpos]
    refine ⟨hz, ?_⟩
    rw [hfin]
    rw [List.filter_eq_nil_iff]
    intro p hp
    have := (minFold_zero_eq_zero_iff now t.items).mp hz p hp
    simp [this]

lemma weakInv_none {t : CacheTable} {now : Int} (hinv : WeakInv t now)
    (hw : t.wakeAt = none) :
    t.cleanupInterval = 0 ∧ finiteItems t = [] := by
  obtain ⟨_, hmatch⟩ := hinv
  rw [hw] at hmatch
  exact hmatch

lemma weakInv_some {t : CacheTable} {now m : Int} (hinv : WeakInv t now)
    (hw : t.wakeAt = some m) :
    (∀ p ∈ finiteItems t, m ≤ p.2.accessedOn + p.2.lifeSpan)
      ∧ m ≤ now + t.cleanupInterval := by
  obtain ⟨_, hmatch⟩ := hinv
  rw [hw] at hmatch
  exact hmatch

lemma weakInv_of_items (t : CacheTable) (now : Int)
    (l2 : List (Int × CacheItem)) (hinv : WeakInv t now)
    (hnone : t.wakeAt = none → ∀ p ∈ l2, ¬ 0 < p.2.lifeSpan)
    (hsome : ∀ m, t.wakeAt = some m → ∀ p ∈ l2, 0 < p.2.lifeSpan →
      m ≤ p.2.accessedOn + p.2.lifeSpan) :
    WeakInv { t with items := l2 } now := by
  refine ⟨hinv.1, ?_⟩
  show (match t.wakeAt with
    | none => t.cleanupInterval = 0 ∧ finiteItems { t with items := l2 } = []
    | some m => (∀ p ∈ finiteItems { t with items := l2 },
          m ≤ p.2.accessedOn + p.2.lifeSpan)
        ∧ m ≤ now + t.cleanupInterval)
  cases hw : t.wakeAt with
  | none =>
    refine ⟨(weakInv_none hinv hw).1, ?_⟩
    show l2.filter (fun p => decide (0 < p.2.lifeSpan)) = []
    rw [List.filter_eq_nil_iff]
    intro p hp
    simpa using hnone hw p hp
  | some m =>
    refine ⟨?_, (weakInv_some hinv hw).2⟩
    intro p hp
    have hmem := List.mem_filter.mp hp
    exact hsome m hw p hmem.1 (of_decide_eq_true hmem.2)

lemma weakInv_addInternal (t : CacheTable) (item : CacheItem) (now : Int)
    (hwf : WFTable t) (hinv : WeakInv t now) (hL : 0 ≤ item.lifeSpan)
    (hacc : item.accessedOn = now) :
    WeakInv (t.addInternal item now).1 now := by
  have hwf1 : WFTable
      ({ t with items := updateItem t.items item.key item } : CacheTable) :=
    itemsWF_updateItem hwf hL
  by_cases hcond : 0 < item.lifeSpan ∧
      (t.cleanupInterval = 0 ∨ item.lifeSpan < t.cleanupInterval)
  · have hres : (t.addInternal item now).1 =
        (({ t with items := updateItem t.items item.key item } :
          CacheTable).expirationCheck now).1 := by
      simp only [CacheTable.addInternal]
      rw [if_pos hcond]
    rw [hres]
    exact weakInv_expirationCheck _ now hwf1
  · have hres : (t.addInternal item now).1 =
        ({ t with items := updateItem t.items item.key item } : CacheTable) := by
      simp only [CacheTable.addInternal]
      rw [if_neg hcond]
    rw [hres]
    refine weakInv_of_items t now _ hinv ?_ ?_
    · intro hw p hp
      have hint := (weakInv_none hinv hw).1
      have hfin := (weakInv_none hinv hw).2
      rcases mem_updateItem hp with h1 | h1
      · have hL0 : item.lifeSpan = 0 := by
          by_contra hne
          exact hcond ⟨by omega, Or.inl hint⟩
        rw [h1]
        simp [hL0]
      · have := List.filter_eq_nil_iff.mp hfin p h1
        simpa using this
    · intro m hw p hp hfinp
      have hsome := weakInv_some hinv hw
      rcases mem_updateItem hp with h1 | h1
      · have hLpos : 0 < item.lifeSpan := by rw [h1] at hfinp; exact hfinp
        have hci : ¬ (t.cleanupInterval = 0 ∨
            item.lifeSpan < t.cleanupInterval) := fun hc => hcond ⟨hLpos, hc⟩
        push_neg at hci
        rw [h1]
        show m ≤ item.accessedOn + item.lifeSpan
        rw [hacc]
        have := hsome.2
        omega
      · exact hsome.1 p (List.mem_filter.mpr
          ⟨h1, decide_eq_true hfinp⟩)

lemma weakInv_value (t : CacheTable) (key : Int) (args : List Int) (now : Int)
    (hwf : WFTable t) (htime : TimeWF t now) (hload : LoaderWF t)
    (hinv : WeakInv t now) : WeakInv (t.Value key args now).2.1 now := by
  cases hlk : lookupKey t.items key with
  | some r =>
    simp only [CacheTable.Value, hlk]
    refine weakInv_of_items t now _ hinv ?_ ?_
    · intro hw p hp
      have hfin := (weakInv_none hinv hw).2
      rcases mem_updateItem hp with h1 | h1
      · have hrmem : (key, r) ∈ t.items := lookupKey_some_mem hlk
        have h2 := List.filter_eq_nil_iff.mp hfin (key, r) hrmem
        have h3 : ¬ 0 < r.lifeSpan := by simpa using h2
        rw [h1]
        simpa [CacheItem.KeepAlive] using h3
      · simpa using List.filter_eq_nil_iff.mp hfin p h1
    · intro m hw p hp hfinp
      have hsome := weakInv_some hinv hw
      rcases mem_updateItem hp with h1 | h1
      · have hrmem : (key, r) ∈ t.items := lookupKey_some_mem hlk
        have hLfin : 0 < r.lifeSpan := by
          rw [h1] at hfinp
          simpa [CacheItem.KeepAlive] using hfinp
        have hrfin : (key, r) ∈ finiteItems t :=
          List.mem_filter.mpr ⟨hrmem, decide_eq_true hLfin⟩
        have h2 : m ≤ r.accessedOn + r.lifeSpan := hsome.1 _ hrfin
        have h3 : r.accessedOn ≤ now := htime (key, r) hrmem
        rw [h1]
        show m ≤ (r.KeepAlive now).accessedOn + (r.KeepAlive now).lifeSpan
        simp only [CacheItem.KeepAlive]
        omega
      · exact hsome.1 p (List.mem_filter.mpr ⟨h1, decide_eq_true hfinp⟩)
  | none =>
    cases hld : t.loadData with
    | none =>
      simp only [CacheTable.Value, hlk, hld]
      exact hinv
    | some f =>
      cases hfk : f key args with
      | none =>
        simp only [CacheTable.Value, hlk, hld, hfk]
        exact hinv
      | some it =>
        simp only [CacheTable.Value, hlk, hld, hfk]
        have hL := hload f hld key args it hfk
        show WeakInv (t.Add key it.lifeSpan it.data now).2.1 now
        unfold CacheTable.Add
        exact weakInv_addInternal t _ now hwf hinv hL rfl

lemma weakInv_delete (t : CacheTable) (key : Int) (now : Int)
    (hinv : WeakInv t now) : WeakInv (t.Delete key).2.1 now := by
  unfold CacheTable.Delete CacheTable.deleteInternal
  cases hlk : lookupKey t.items key with
  | none => exact hinv
  | some r =>
    refine weakInv_of_items t now _ hinv ?_ ?_
    · intro hw p hp
      simpa using List.filter_eq_nil_iff.mp (weakInv_none hinv hw).2 p
        (mem_eraseKey hp)
    · intro m hw p hp hfinp
      exact (weakInv_some hinv hw).1 p
        (List.mem_filter.mpr ⟨mem_eraseKey hp, decide_eq_true hfinp⟩)

lemma weakInv_flush (t : CacheTable) (now : Int) : WeakInv (t.Flush).1 now :=
  ⟨le_refl 0, rfl, rfl⟩

lemma weakInv_notFoundAdd (t : CacheTable) (key lifeSpan data now : Int)
    (hwf : WFTable t) (hinv : WeakInv t now) (hL : 0 ≤ lifeSpan) :
    WeakInv (t.NotFoundAdd key lifeSpan data now).2.1 now := by
  unfold CacheTable.NotFoundAdd
  cases hlk : lookupKey t.items key with
  | some r => exact hinv
  | none => exact weakInv_addInternal t _ now hwf hinv hL rfl

lemma addInternal_lookup_self (t : CacheTable) (item : CacheItem) (now : Int)
    (hwf : WFTable t) (hacc : item.accessedOn = now) :
    lookupKey ((t.addInternal item now).1).items item.key = some item := by
  have hup : lookupKey (updateItem t.items item.key item) item.key = some item :=
    lookupKey_updateItem_self t.items item.key item
  by_cases hcond : 0 < item.lifeSpan ∧
      (t.cleanupInterval = 0 ∨ item.lifeSpan < t.cleanupInterval)
  · have hres : (t.addInternal item now).1 =
        (({ t with items := updateItem t.items item.key item } :
          CacheTable).expirationCheck now).1 := by
      simp only [CacheTable.addInternal]
      rw [if_pos hcond]
    rw [hres, expirationCheck_eq _ now (nodup_keys_updateItem hwf.1)]
    show lookupKey ((updateItem t.items item.key item).filter
      (fun p => !(expiredB now p))) item.key = some item
    apply lookupKey_filter_of_nodup (nodup_keys_updateItem hwf.1) hup
    have hE : expiredB now (item.key, item) = false := by
      simp only [expiredB, decide_eq_false_iff_not]
      intro hc
      rw [hacc] at hc
      have := hcond.1
      omega
    simp [hE]
  · have hres : (t.addInternal item now).1 =
        ({ t with items := updateItem t.items item.key item } : CacheTable) := by
      simp only [CacheTable.addInternal]
      rw [if_neg hcond]
    rw [hres]
    exact hup

/-- C4: `Delete` on an absent key fails with `ErrKeyNotFound` and leaves the
table unchanged (and fires no callbacks); on a present key it fires the
table-level `aboutToDeleteItem` callback (receiving the item) first, then the
item's own `aboutToExpire` callback (receiving the key), then removes the key
from the mapping, returning the removed item. -/
theorem delete_spec (t : CacheTable) (key : Int) :
    (lookupKey t.items key = none →
      t.Delete key = (Except.error CacheError.keyNotFound, t, []))
    ∧ (∀ r, lookupKey t.items key = some r →
      t.Delete key = (Except.ok r, { t with items := eraseKey t.items key },
        (if t.hasAboutToDeleteItem then [Event.aboutToDeleteItem r] else [])
          ++ ((if r.aboutToExpire then [Event.aboutToExpire key] else [])
            ++ [Event.removed key]))) := by
  constructor
  · intro h
    simp [CacheTable.Delete, CacheTable.deleteInternal, h]
  · intro r h
    simp [CacheTable.Delete, CacheTable.deleteInternal, h, deleteCore]

/-- Witness for C4: deleting the present key 1 of `TC1` returns `itemA` and
fires the table callback, then the item callback, then the removal. -/
theorem delete_spec_witness :
    TC1.Delete 1 = (Except.ok itemA,
      { TC1 with items := eraseKey TC1.items 1 },
      [Event.aboutToDeleteItem itemA, Event.aboutToExpire 1,
        Event.removed 1]) := by
  rw [(delete_spec TC1 1).2 itemA rfl]
  rfl

/-- C7: `Flush` empties the mapping (`Count` is 0), zeroes the cleanup
interval, stops the pending timer, and fires no callbacks at all, even
though callback slots may be set. -/
theorem flush_spec (t : CacheTable) :
    (t.Flush).1.items = [] ∧ (t.Flush).1.Count = 0
      ∧ (t.Flush).1.cleanupInterval = 0 ∧ (t.Flush).1.wakeAt = none
      ∧ (t.Flush).2 = []
      ∧ (t.Flush).1.hasAboutToDeleteItem = t.hasAboutToDeleteItem :=
  ⟨rfl, rfl, rfl, rfl, rfl, rfl⟩

/-- C2: `Value` succeeds on every present key; on an absent key it fails
with `ErrKeyNotFound` when no loader is configured, fails with
`ErrKeyNotFoundOrLoadable` when the configured loader returns nothing, and
succeeds with the loader's item when the loader produces one; these are the
only error outcomes. -/
theorem value_error_classification (t : CacheTable) (key : Int)
    (args : List Int) (now : Int) :
    (∀ r, lookupKey t.items key = some r →
      (t.Value key args now).1 = Except.ok (r.KeepAlive now))
    ∧ (lookupKey t.items key = none → t.loadData = none →
      (t.Value key args now).1 = Except.error CacheError.keyNotFound)
    ∧ (∀ f, lookupKey t.items key = none → t.loadData = some f →
      f key args = none →
      (t.Value key args now).1 = Except.error CacheError.keyNotFoundOrLoadable)
    ∧ (∀ f it, lookupKey t.items key = none → t.loadData = some f →
      f key args = some it → (t.Value key args now).1 = Except.ok it)
    ∧ (∀ e, (t.Value key args now).1 = Except.error e →
      lookupKey t.items key = none
        ∧ ((e = CacheError.keyNotFound ∧ t.loadData = none)
          ∨ (e = CacheError.keyNotFoundOrLoadable
            ∧ ∃ f, t.loadData = some f ∧ f key args = none))) := by
  refine ⟨?_, ?_, ?_, ?_, ?_⟩
  · intro r h
    simp [CacheTable.Value, h]
  · intro h1 h2
    simp [CacheTable.Value, h1, h2]
  · intro f h1 h2 h3
    simp [CacheTable.Value, h1, h2, h3]
  · intro f it h1 h2 h3
    simp [CacheTable.Value, h1, h2, h3]
  · intro e he
    cases hlk : lookupKey t.items key with
    | some r =>
      simp [CacheTable.Value, hlk] at he
    | none =>
      refine ⟨rfl, ?_⟩
      cases hld : t.loadData with
      | none =>
        simp [CacheTable.Value, hlk, hld] at he
        exact Or.inl ⟨he.symm, rfl⟩
      | some f =>
        cases hfk : f key args with
        | some it =>
          simp [CacheTable.Value, hlk, hld, hfk] at he
        | none =>
          simp [CacheTable.Value, hlk, hld, hfk] at he
          exact Or.inr ⟨he.symm, f, rfl, hfk⟩

/-- Witness for C2: a miss on the empty, loaderless table fails with
`ErrKeyNotFound`. -/
theorem value_error_classification_witness :
    (TEmpty.Value 1 [] 0).1 = Except.error CacheError.keyNotFound :=
  (value_error_classification TEmpty 1 [] 0).2.1 rfl rfl

/-- C6: `Value` on a present key never errors: it returns the stored item
after `KeepAlive`, which sets `accessedOn` to the access time and increments
`accessCount`, so the expiry deadline becomes a full lifespan after the
access; the same kept-alive item is what remains stored under the key. -/
theorem value_hit_keepalive (t : CacheTable) (key : Int) (args : List Int)
    (now : Int) (r : CacheItem) (h : lookupKey t.items key = some r) :
    (t.Value key args now).1 = Except.ok (r.KeepAlive now)
    ∧ lookupKey ((t.Value key args now).2.1).items key
        = some (r.KeepAlive now)
    ∧ (t.Value key args now).2.2 = []
    ∧ (r.KeepAlive now).accessedOn = now
    ∧ (r.KeepAlive now).accessCount = r.accessCount + 1
    ∧ (r.KeepAlive now).lifeSpan = r.lifeSpan
    ∧ (r.KeepAlive now).accessedOn + (r.KeepAlive now).lifeSpan
        = now + r.lifeSpan := by
  refine ⟨?_, ?_, ?_, rfl, rfl, rfl, rfl⟩
  · simp [CacheTable.Value, h]
  · simp only [CacheTable.Value, h]
    exact lookupKey_updateItem_self t.items key (r.KeepAlive now)
  · simp [CacheTable.Value, h]

/-- Witness for C6: looking up the present key 3 of `TC1` at time 4 succeeds
with the kept-alive `itemC`. -/
theorem value_hit_keepalive_witness :
    (TC1.Value 3 [] 4).1 = Except.ok (itemC.KeepAlive 4) :=
  (value_hit_keepalive TC1 3 [] 4 itemC rfl).1

/-- C8: `NotFoundAdd` returns `true` and stores a newly constructed item
when the key is absent; when the key is present it returns `false`, leaves
the table exactly as it was, and fires no callbacks. The existence check and
insertion are one critical section in the code (modelled here as a single
atomic transition). -/
theorem notFoundAdd_spec (t : CacheTable) (key lifeSpan data now : Int)
    (hwf : WFTable t) :
    (lookupKey t.items key = none →
      (t.NotFoundAdd key lifeSpan data now).1 = true
      ∧ lookupKey ((t.NotFoundAdd key lifeSpan data now).2.1).items key
          = some (NewCacheItem key lifeSpan data now))
    ∧ (∀ r, lookupKey t.items key = some r →
      (t.NotFoundAdd key lifeSpan data now).1 = false
      ∧ (t.NotFoundAdd key lifeSpan data now).2.1 = t
      ∧ (t.NotFoundAdd key lifeSpan data now).2.2 = []) := by
  constructor
  · intro h
    constructor
    · simp [CacheTable.NotFoundAdd, h]
    · simp only [CacheTable.NotFoundAdd, h]
      exact addInternal_lookup_self t (NewCacheItem key lifeSpan data now)
        now hwf rfl
  · intro r h
    refine ⟨?_, ?_, ?_⟩ <;> simp [CacheTable.NotFoundAdd, h]

/-- Witness for C8: `NotFoundAdd` of key 4 on the empty table reports `true`
and the freshly constructed item is stored under key 4. -/
theorem notFoundAdd_spec_witness :
    (TEmpty.NotFoundAdd 4 5 44 0).1 = true
    ∧ lookupKey ((TEmpty.NotFoundAdd 4 5 44 0).2.1).items 4
        = some (NewCacheItem 4 5 44 0) :=
  (notFoundAdd_spec TEmpty 4 5 44 0 (by decide)).1 rfl

lemma value_load_core (t : CacheTable) (key : Int) (args : List Int)
    (now : Int) (f : Int → List Int → Option CacheItem) (it : CacheItem)
    (hwf : WFTable t) (habs : lookupKey t.items key = none)
    (hf : t.loadData = some f) (hit : f key args = some it) :
    (t.Value key args now).1 = Except.ok it
    ∧ lookupKey ((t.Value key args now).2.1).items key
        = some (NewCacheItem key it.lifeSpan it.data now) := by
  constructor
  · simp [CacheTable.Value, habs, hf, hit]
  · simp only [CacheTable.Value, habs, hf, hit]
    show lookupKey ((t.Add key it.lifeSpan it.data now).2.1).items key = _
    unfold CacheTable.Add
    exact addInternal_lookup_self t (NewCacheItem key it.lifeSpan it.data now)
      now hwf rfl

/-- C5 (amended): when `Value` misses and a configured loader produces an
item, the call succeeds with the loader's item and the REQUESTED key — with
the loaded item's lifespan and data — is (re)added to the table, so the next
lookup of that key hits and runs no loader (the loader item's own key field
is ignored by the re-add). -/
theorem value_miss_load_spec (t : CacheTable) (key : Int) (args : List Int)
    (now : Int) (f : Int → List Int → Option CacheItem) (it : CacheItem)
    (hwf : WFTable t) (habs : lookupKey t.items key = none)
    (hf : t.loadData = some f) (hit : f key args = some it) :
    (t.Value key args now).1 = Except.ok it
    ∧ lookupKey ((t.Value key args now).2.1).items key
        = some (NewCacheItem key it.lifeSpan it.data now)
    ∧ (∀ args2 now2,
      (((t.Value key args now).2.1).Value key args2 now2).1
        = Except.ok ((NewCacheItem key it.lifeSpan it.data now).KeepAlive now2)
      ∧ (((t.Value key args now).2.1).Value key args2 now2).2.2 = []) := by
  obtain ⟨h1, h2⟩ := value_load_core t key args now f it hwf habs hf hit
  set t2 := (t.Value key args now).2.1 with ht2
  refine ⟨h1, h2, fun args2 now2 => ⟨?_, ?_⟩⟩
  · simp [CacheTable.Value, h2]
  · simp [CacheTable.Value, h2]

/-- Counterexample for C5 as stated: the loader's item carries key 25, but
after `Value` on key 1 the table contains key 1 (with the loaded lifespan
and data) and NOT the loader item's key 25 — "that item's key is added" is
false when the loader's key differs from the requested one. -/
theorem value_miss_load_counterexample :
    T5.loadData = some loaderMismatch
    ∧ loaderMismatch 1 [] = some item25
    ∧ item25.key = 25
    ∧ lookupKey T5.items 1 = none
    ∧ (T5.Value 1 [] 0).1 = Except.ok item25
    ∧ lookupKey ((T5.Value 1 [] 0).2.1).items 25 = none
    ∧ lookupKey ((T5.Value 1 [] 0).2.1).items 1
        = some (NewCacheItem 1 item25.lifeSpan item25.data 0) := by
  refine ⟨rfl, rfl, rfl, rfl, ?_, ?_, ?_⟩ <;> rfl

/-- Witness for C5's amended theorem: loading absent key 1 of `T5` at time 0
succeeds with the loader's item. -/
theorem value_miss_load_spec_witness :
    (T5.Value 1 [] 0).1 = Except.ok item25 :=
  (value_miss_load_spec T5 1 [] 0 loaderMismatch item25 (by decide) rfl rfl
    rfl).1

/-- C10: when `Value` is served by the data loader, the caller gets the
loader's own item back, but the table stores a NEWLY constructed item under
the requested key carrying the loaded lifespan and data with fresh
`createdOn`/`accessedOn` timestamps, zero access count, and no
`aboutToExpire` callback — the returned object is never the stored one, so
mutating the returned item cannot affect the table's entry. -/
theorem value_load_returns_loader_item (t : CacheTable) (key : Int)
    (args : List Int) (now : Int) (f : Int → List Int → Option CacheItem)
    (it : CacheItem) (hwf : WFTable t) (habs : lookupKey t.items key = none)
    (hf : t.loadData = some f) (hit : f key args = some it) :
    (t.Value key args now).1 = Except.ok it
    ∧ lookupKey ((t.Value key args now).2.1).items key
        = some (NewCacheItem key it.lifeSpan it.data now)
    ∧ (NewCacheItem key it.lifeSpan it.data now).key = key
    ∧ (NewCacheItem key it.lifeSpan it.data now).lifeSpan = it.lifeSpan
    ∧ (NewCacheItem key it.lifeSpan it.data now).data = it.data
    ∧ (NewCacheItem key it.lifeSpan it.data now).createdOn = now
    ∧ (NewCacheItem key it.lifeSpan it.data now).accessedOn = now
    ∧ (NewCacheItem key it.lifeSpan it.data now).accessCount = 0
    ∧ (NewCacheItem key it.lifeSpan it.data now).aboutToExpire = false := by
  obtain ⟨h1, h2⟩ := value_load_core t key args now f it hwf habs hf hit
  exact ⟨h1, h2, rfl, rfl, rfl, rfl, rfl, rfl, rfl⟩

/-- Witness for C10: loading absent key 2 of `T5` at time 3 returns the
loader's `item25` while storing a fresh item under key 2. -/
theorem value_load_returns_loader_item_witness :
    (T5.Value 2 [] 3).1 = Except.ok item25
    ∧ lookupKey ((T5.Value 2 [] 3).2.1).items 2
        = some (NewCacheItem 2 item25.lifeSpan item25.data 3) := by
  have h := value_load_returns_loader_item T5 2 [] 3 loaderMismatch item25
    (by decide) rfl rfl rfl
  exact ⟨h.1, h.2.1⟩

lemma expiredB_eq_claim (now : Int) (p : Int × CacheItem)
    (hL : 0 ≤ p.2.lifeSpan) :
    expiredB now p
      = decide (0 < p.2.lifeSpan ∧ p.2.lifeSpan ≤ now - p.2.accessedOn) := by
  unfold expiredB
  rw [decide_eq_decide]
  constructor
  · rintro ⟨h1, h2⟩
    exact ⟨by omega, h2⟩
  · rintro ⟨h1, h2⟩
    exact ⟨by omega, h2⟩

/-- C1: when the expiration timer fires at time `now`, exactly the items
with finite lifespan whose idle time `now - accessedOn` has reached
`lifeSpan` are deleted — each emitting the same callback sequence `Delete`
would emit for it — and every other item stays; afterwards the scheduler is
re-armed with `cleanupInterval` equal to the minimum remaining time-to-live
`lifeSpan - (now - accessedOn)` over the surviving finite-lifespan items and
a timer due then, or left disarmed (interval 0, no timer) when no
finite-lifespan item remains. -/
theorem expirationCheck_spec (t : CacheTable) (now : Int) (hwf : WFTable t) :
    ((t.expirationCheck now).1.items = t.items.filter (fun p =>
      !(decide (0 < p.2.lifeSpan ∧ p.2.lifeSpan ≤ now - p.2.accessedOn))))
    ∧ ((t.expirationCheck now).2 = (t.items.filter (fun p =>
        decide (0 < p.2.lifeSpan
          ∧ p.2.lifeSpan ≤ now - p.2.accessedOn))).flatMap
        (fun p => deleteCore t.hasAboutToDeleteItem p.1 p.2))
    ∧ (∀ p ∈ t.items,
        decide (0 < p.2.lifeSpan ∧ p.2.lifeSpan ≤ now - p.2.accessedOn)
            = true →
        (t.Delete p.1).2.2 = deleteCore t.hasAboutToDeleteItem p.1 p.2)
    ∧ (finiteItems (t.expirationCheck now).1 = [] →
        (t.expirationCheck now).1.cleanupInterval = 0
        ∧ (t.expirationCheck now).1.wakeAt = none)
    ∧ (finiteItems (t.expirationCheck now).1 ≠ [] →
        (∃ p ∈ finiteItems (t.expirationCheck now).1,
          (t.expirationCheck now).1.cleanupInterval
            = p.2.lifeSpan - (now - p.2.accessedOn))
        ∧ (∀ p ∈ finiteItems (t.expirationCheck now).1,
          (t.expirationCheck now).1.cleanupInterval
            ≤ p.2.lifeSpan - (now - p.2.accessedOn))
        ∧ (t.expirationCheck now).1.wakeAt
            = some (now + (t.expirationCheck now).1.cleanupInterval)) := by
  have heq := expirationCheck_eq t now hwf.1
  have hfin := finiteItems_expirationCheck t now hwf
  have hfc : ∀ f : Bool → Bool, t.items.filter (fun p => f (expiredB now p))
      = t.items.filter (fun p => f (decide (0 < p.2.lifeSpan
        ∧ p.2.lifeSpan ≤ now - p.2.accessedOn))) := by
    intro f
    exact List.filter_congr (fun p hp => by
      rw [expiredB_eq_claim now p (hwf.2 p hp)])
  refine ⟨?_, ?_, ?_, ?_, ?_⟩
  · rw [heq]
    show t.items.filter (fun p => !(expiredB now p)) = _
    exact hfc (fun b => !b)
  · rw [heq]
    show (t.items.filter (fun p => expiredB now p)).flatMap _ = _
    rw [hfc (fun b => b)]
  · intro p hp hdec
    have hlk : lookupKey t.items p.1 = some p.2 :=
      mem_lookupKey_of_nodup hwf.1 (by cases p; exact hp)
    simp [CacheTable.Delete, CacheTable.deleteInternal, hlk]
  · intro hempty
    rw [hfin] at hempty
    have hall := List.filter_eq_nil_iff.mp hempty
    have hz : minFold now 0 t.items = 0 :=
      (minFold_zero_eq_zero_iff now t.items).mpr (fun p hp => by
        have := hall p hp
        simpa using this)
    rw [heq]
    constructor
    · exact hz
    · show (if 0 < minFold now 0 t.items then some (now + minFold now 0 t.items)
        else none) = none
      rw [if_neg (by omega)]
  · intro hne
    rw [hfin] at hne
    have hnz : minFold now 0 t.items ≠ 0 := by
      intro hz
      have hall := (minFold_zero_eq_zero_iff now t.items).mp hz
      apply hne
      rw [List.filter_eq_nil_iff]
      intro p hp
      simp [hall p hp]
    have hpos : 0 < minFold now 0 t.items := by
      have := minFold_nonneg now t.items 0 le_rfl
      omega
    refine ⟨?_, ?_, ?_⟩
    · rcases minFold_mem now t.items 0 with h | ⟨p, hp, hsv, he⟩
      · exact absurd h hnz
      · refine ⟨p, ?_, ?_⟩
        · rw [hfin]
          exact List.mem_filter.mpr ⟨hp, hsv⟩
        · rw [heq]
          show minFold now 0 t.items = _
          rw [he]
          rfl
    · intro p hp
      rw [hfin] at hp
      have hmem := List.mem_filter.mp hp
      have := minFold_le_rem now t.items 0 le_rfl p hmem.1 hmem.2
      rw [heq]
      show minFold now 0 t.items ≤ _
      unfold remTTL at this
      exact this
    · rw [heq]
      show (if 0 < minFold now 0 t.items then some (now + minFold now 0 t.items)
        else none) = some (now + minFold now 0 t.items)
      rw [if_pos hpos]

/-- Witness for C1: running the check on `TC1` at time 6 deletes exactly the
expired entry. -/
theorem expirationCheck_spec_witness :
    (TC1.expirationCheck 6).1.items = TC1.items.filter (fun p =>
      !(decide (0 < p.2.lifeSpan ∧ p.2.lifeSpan ≤ 6 - p.2.accessedOn))) :=
  (expirationCheck_spec TC1 6 (by decide)).1

/-- Counterexample for C3 as stated: `T0` (one finite-lifespan item, timer
armed exactly at its deadline) satisfies the claimed exact invariant at time
0, but `Delete 1` removes the last finite-lifespan item WITHOUT disarming the
scheduler — the timer stays pending for time 5 — so the exact invariant is
not preserved by `Delete`. -/
theorem exactInv_not_preserved_by_delete :
    WFTable T0 ∧ TimeWF T0 0 ∧ LoaderWF T0 ∧ ExactInv T0
    ∧ (applyOp T0 0 (Op.delete 1)).1 = T0del
    ∧ ¬ ExactInv T0del ∧ finiteItems T0del = [] ∧ T0del.wakeAt = some 5 := by
  refine ⟨by decide, by decide, ?_, by decide, by rfl, by decide, rfl, rfl⟩
  intro f h
  exact absurd h (by simp [T0])

/-- C3 (amended): the exact minimum-wake invariant is re-established by each
`expirationCheck` and by `Flush`, but it is NOT preserved by `Delete` or by
a keep-alive `Value` (neither touches the scheduler). What every operation
preserves, given well-formed state and timestamps in the past, is the weaker
invariant `WeakInv`: the interval is non-negative, a disarmed scheduler
implies no finite-lifespan items and zero interval, and an armed scheduler
wakes no later than every finite-lifespan item's deadline (and no later than
`now + cleanupInterval`) — the timer may only fire early, never late. -/
theorem weakInv_preserved (t : CacheTable) (now : Int) (op : Op)
    (hwf : WFTable t) (htime : TimeWF t now) (hload : LoaderWF t)
    (hop : OpWF op) (hinv : WeakInv t now) :
    WeakInv (applyOp t now op).1 now := by
  cases op with
  | add k lifeSpan d =>
    show WeakInv (t.Add k lifeSpan d now).2.1 now
    unfold CacheTable.Add
    exact weakInv_addInternal t _ now hwf hinv hop rfl
  | notFoundAdd k lifeSpan d =>
    exact weakInv_notFoundAdd t k lifeSpan d now hwf hinv hop
  | value k args => exact weakInv_value t k args now hwf htime hload hinv
  | delete k => exact weakInv_delete t k now hinv
  | flush => exact weakInv_flush t now
  | expire => exact weakInv_expirationCheck t now hwf

/-- Witness for C3's amended theorem: deleting the only finite-lifespan item
of `T0` preserves the weak invariant (the early-armed timer is allowed). -/
theorem weakInv_preserved_witness : WeakInv (applyOp T0 0 (Op.delete 1)).1 0 :=
  weakInv_preserved T0 0 (Op.delete 1) (by decide) (by decide)
    (fun f h => absurd h (by simp [T0])) trivial (by decide)

lemma accessPairs_lookup (t : CacheTable) (hwf : WFTable t) {v : Int × Int}
    (hv : v ∈ accessPairs t) :
    ∃ it, lookupKey t.items v.1 = some it ∧ it.accessCount = v.2 := by
  rcases List.mem_map.mp hv with ⟨q, hq, hqe⟩
  subst hqe
  exact ⟨q.2, mem_lookupKey_of_nodup hwf.1 (by cases q; exact hq), rfl⟩

lemma filterMap_lookup_spec (t : CacheTable) (hwf : WFTable t) :
    ∀ l : List (Int × Int), (∀ v ∈ l, v ∈ accessPairs t) →
      (l.filterMap (fun v => lookupKey t.items v.1)).length = l.length
      ∧ (l.filterMap (fun v => lookupKey t.items v.1)).map
          CacheItem.accessCount = l.map Prod.snd := by
  intro l
  induction l with
  | nil => intro _; simp
  | cons v rest ih =>
    intro hmem
    obtain ⟨it, hlk, hcnt⟩ := accessPairs_lookup t hwf
      (hmem v (List.mem_cons_self _ _))
    obtain ⟨ih1, ih2⟩ := ih (fun w hw => hmem w (List.mem_cons_of_mem _ hw))
    constructor
    · simp only [List.filterMap_cons, hlk, List.length_cons, List.map_cons]
      rw [ih1]
    · simp only [List.filterMap_cons, hlk, List.map_cons]
      rw [ih2, hcnt]

/-- C9: `MostAccessed n` returns stored items sorted in descending access
count, of length `min n (Count)` (clamping negative `n` to the empty
result); on the concrete table with access counts 5, 1, 3, `MostAccessed 2`
returns exactly the 5-count item then the 3-count item. -/
theorem mostAccessed_spec (t : CacheTable) (n : Int) (hwf : WFTable t) :
    ((t.MostAccessed n).length = min n.toNat t.items.length)
    ∧ List.Pairwise (fun a b : CacheItem => b.accessCount ≤ a.accessCount)
        (t.MostAccessed n)
    ∧ (∀ it ∈ t.MostAccessed n, ∃ p ∈ t.items, p.2 = it)
    ∧ (n ≤ 0 → t.MostAccessed n = [])
    ∧ (T9.MostAccessed 2).map CacheItem.key = [10, 30]
    ∧ (T9.MostAccessed 2).map CacheItem.accessCount = [5, 3] := by
  haveI hTot : IsTotal (Int × Int) (fun a b => b.2 ≤ a.2) :=
    ⟨fun a b => le_total b.2 a.2⟩
  haveI hTr : IsTrans (Int × Int) (fun a b => b.2 ≤ a.2) :=
    ⟨fun a b c h1 h2 => le_trans h2 h1⟩
  set srt := List.insertionSort (fun a b : Int × Int => b.2 ≤ a.2)
    (accessPairs t) with hsrt
  have hres : t.MostAccessed n
      = (srt.take n.toNat).filterMap (fun v => lookupKey t.items v.1) := by
    rw [hsrt]
    rfl
  have hmemtake : ∀ v ∈ srt.take n.toNat, v ∈ accessPairs t := by
    intro v hv
    have h1 : v ∈ srt := (List.take_sublist _ _).subset hv
    rw [hsrt] at h1
    exact (List.mem_insertionSort _).mp h1
  obtain ⟨hlen, hmap⟩ := filterMap_lookup_spec t hwf (srt.take n.toNat)
    hmemtake
  refine ⟨?_, ?_, ?_, ?_, ?_, ?_⟩
  · rw [hres, hlen, List.length_take, hsrt, List.length_insertionSort]
    simp [accessPairs]
  · have hsorted : List.Sorted (fun a b : Int × Int => b.2 ≤ a.2) srt := by
      rw [hsrt]
      exact List.sorted_insertionSort _ _
    have htake := List.Pairwise.sublist (List.take_sublist n.toNat srt)
      hsorted
    have hsnd : List.Pairwise (fun x y : Int => y ≤ x)
        ((srt.take n.toNat).map Prod.snd) := List.pairwise_map.mpr htake
    rw [← hmap] at hsnd
    have hpw := List.pairwise_map.mp hsnd
    rw [hres]
    exact hpw
  · intro it hit
    rw [hres] at hit
    rcases List.mem_filterMap.mp hit with ⟨v, _, hlk⟩
    exact ⟨(v.1, it), lookupKey_some_mem hlk, rfl⟩
  · intro hn
    rw [hres, Int.toNat_of_nonpos hn]
    simp
  · decide
  · decide

/-- Witness for C9: the concrete ordering conjunct on `T9`. -/
theorem mostAccessed_spec_witness :
    (T9.MostAccessed 2).map CacheItem.key = [10, 30] :=
  (mostAccessed_spec T9 2 (by decide)).2.2.2.2.1
